import Mathlib

/-!
# Verification of a recursive binary search tree and Bell-number routines

Shallow embedding of `data_structures/binary_tree/binary_search_tree_recursive.py`
and `maths/bell_numbers.py`, with proofs of the specified properties.

A tree node holds an integer `data` and two child slots (`left`, `right`),
either of which may be absent (Python `None`); an absent tree is `leaf`.
All operations are embedded as pure functions returning the rebound
subtree root, mirroring the Python caller-side rebinding pattern
(`root = bst.insert(root, x)`).
-/

namespace BstRec

/-- A binary tree of integers: `leaf` is Python's `None`,
`node left data right` is a `Node` object. -/
inductive Tree where
  | leaf : Tree
  | node : Tree → Int → Tree → Tree
  deriving DecidableEq, Repr

open Tree

/-- `BinarySearchTree.insert(root, data)`: create a node at an absent root,
otherwise recurse left on smaller, right on larger, no-op on equal. -/
def insert : Tree → Int → Tree
  | leaf, data => node leaf data leaf
  | node l d r, data =>
    if data < d then node (insert l data) d r
    else if data > d then node l d (insert r data)
    else node l d r

/-- `BinarySearchTree.search(root, key)`: absent root is not found; equal is
found; smaller keys go left, anything else goes right. -/
def search : Tree → Int → Bool
  | leaf, _ => false
  | node l d r, key =>
    if key == d then true
    else if key < d then search l key
    else search r key

/-- `BinarySearchTree.inorder(root)`: left subtree, then the node's value,
then the right subtree. The Python code prints the values; we return the
emitted sequence as a list. -/
def inorder : Tree → List Int
  | leaf => []
  | node l d r => inorder l ++ d :: inorder r

/-- `BinarySearchTree._min_value(node)`: the while loop
`while current.left: current = current.left; return current.data`,
carried as (current.left, current.data).  `minValue l d` is the result of
the loop started at a node with left child `l` and data `d`, so the
absent-node precondition violation is unrepresentable. -/
def minValue : Tree → Int → Int
  | leaf, d => d
  | node ll ld _, _ => minValue ll ld

/-- `BinarySearchTree.delete(root, key)`: absent root is a no-op; smaller
keys recurse left, larger recurse right; at the matching node, a missing
child lets the other child replace the node, and with both children
present the minimum of the right subtree is copied into the node and then
deleted from the right subtree. -/
def delete : Tree → Int → Tree
  | leaf, _ => leaf
  | node l d r, key =>
    if key < d then node (delete l key) d r
    else if key > d then node l d (delete r key)
    else
      match l, r with
      | leaf, _ => r
      | node ll ld lr, leaf => node ll ld lr
      | node ll ld lr, node rl rd rr =>
        let m := minValue rl rd
        node (node ll ld lr) m (delete (node rl rd rr) m)

/-- Plain membership: `x` is the data of some node of the tree
(independent of any ordering assumption). -/
def memT (x : Int) : Tree → Bool
  | leaf => false
  | node l d r => x == d || memT x l || memT x r

/-- Every node's data satisfies `p`. -/
def allTree (p : Int → Bool) : Tree → Bool
  | leaf => true
  | node l d r => p d && allTree p l && allTree p r

/-- The BST ordering invariant of §3: every node's left subtree holds only
strictly smaller values and its right subtree only strictly larger ones. -/
def isBST : Tree → Bool
  | leaf => true
  | node l d r =>
    allTree (fun x => x < d) l && allTree (fun x => d < x) r &&
    isBST l && isBST r

/-- One mutation step of the public API. -/
inductive Op where
  | ins : Int → Op
  | del : Int → Op
  deriving DecidableEq, Repr

/-- Apply one operation to a root. -/
def applyOp (t : Tree) : Op → Tree
  | .ins v => insert t v
  | .del v => delete t v

/-- Run a sequence of operations from a root. -/
def runOps (t : Tree) (ops : List Op) : Tree := ops.foldl applyOp t

/-- Run a sequence of operations from the empty (absent) root. -/
def applyOps (ops : List Op) : Tree := runOps leaf ops

/-! ## The effect of a run on membership -/

/-- One step of the history-based presence spec: an insert of `v` makes it
present, a delete of `v` makes it absent, any other operation leaves it
untouched. -/
def presentStep (v : Int) (b : Bool) : Op → Bool
  | .ins w => if w == v then true else b
  | .del w => if w == v then false else b

/-- `v` was inserted and not subsequently deleted during `ops`. -/
def presentAfter (v : Int) (ops : List Op) : Bool :=
  ops.foldl (presentStep v) false

/-! ## Counting inserts and deletes along a run -/

/-- The values carried by the insert operations of a run. -/
def insertedValues : List Op → List Int
  | [] => []
  | .ins v :: ops => v :: insertedValues ops
  | .del _ :: ops => insertedValues ops

/-- The number of distinct values appearing among the insert operations
of a run (how many different values were ever inserted). -/
def distinctInsertCount (ops : List Op) : Nat :=
  (insertedValues ops).dedup.length

/-- The number of insert operations whose value was absent from the tree
at the moment of the insert, along a run from `t`. -/
def effectiveInserts : Tree → List Op → Nat
  | _, [] => 0
  | t, .ins v :: ops =>
    (if memT v t then 0 else 1) + effectiveInserts (insert t v) ops
  | t, .del v :: ops => effectiveInserts (delete t v) ops

/-- The number of delete operations whose key was present in the tree at
the moment of the delete, along a run from `t`. -/
def effectiveDeletes : Tree → List Op → Nat
  | _, [] => 0
  | t, .ins v :: ops => effectiveDeletes (insert t v) ops
  | t, .del v :: ops =>
    (if memT v t then 1 else 0) + effectiveDeletes (delete t v) ops

/-! ## The demonstration scenario -/

/-- The tree built by the demo driver `binary_search_tree_example`:
each of `[50, 30, 20, 40, 70, 60, 80]` inserted in turn into an empty
root. -/
def exampleTree : Tree := [50, 30, 20, 40, 70, 60, 80].foldl insert leaf

/-- The data of the root node, if any (observer used to phrase the
successor-replacement check of the demo). -/
def rootValue : Tree → Option Int
  | leaf => none
  | node _ d _ => some d

end BstRec

namespace BellNums

/-!
# Bell numbers (`maths/bell_numbers.py`)

The Python code fills `(n+1) × (n+1)` integer arrays initialized to 0 and
never writes entries above the diagonal; each array is embedded as the
function giving the final value of each cell.
-/

/-- The Bell triangle of `bell_number`: `bellTri i j` is `bell[i][j]` after
the fill loops: `bell[0][0] = 1`; row `i ≥ 1` starts with the last element
of the previous row (`bell[i][0] = bell[i-1][i-1]`) and continues with
`bell[i][j] = bell[i-1][j-1] + bell[i][j-1]` for `1 ≤ j ≤ i`; every entry
above the diagonal keeps its initial 0. -/
def bellTri : Nat → Nat → Nat
  | 0, 0 => 1
  | 0, _ + 1 => 0
  | i + 1, 0 => bellTri i i
  | i + 1, j + 1 =>
    if j + 1 ≤ i + 1 then bellTri i j + bellTri (i + 1) j else 0

/-- `bell_number(n)`: 1 for `n = 0` (early return), otherwise `bell[n][0]`
of the Bell triangle. -/
def bell_number (n : Nat) : Nat :=
  if n = 0 then 1 else bellTri n 0

/-- The Stirling table of `bell_number_sum`: `stirling i j` is
`stirling[i][j]` after the fill loops: `stirling[0][0] = 1`, the rest of
row 0 and column 0 are 0, and
`stirling[i][j] = j * stirling[i-1][j] + stirling[i-1][j-1]` for
`1 ≤ j ≤ i`; entries above the diagonal keep their initial 0. -/
def stirling : Nat → Nat → Nat
  | 0, 0 => 1
  | 0, _ + 1 => 0
  | _ + 1, 0 => 0
  | i + 1, j + 1 =>
    if j + 1 ≤ i + 1 then (j + 1) * stirling i (j + 1) + stirling i j else 0

/-- `bell_number_sum(n)`: 1 for `n = 0` (early return), otherwise
`sum(stirling[n])`, the sum of the `n + 1` entries of row `n`. -/
def bell_number_sum (n : Nat) : Nat :=
  if n = 0 then 1 else ∑ k in Finset.range (n + 1), stirling n k

/-- The row sum of the Stirling table: `B(n)` in the
`B(n) = sum of S(n, k) for k = 0 to n` docstring. -/
def bellSum (n : Nat) : Nat := ∑ k in Finset.range (n + 1), stirling n k

end BellNums

namespace BstRec

open Tree

/-! ## Basic lemmas about membership and the invariant -/

theorem memT_node {x d : Int} {l r : Tree} :
    memT x (node l d r) = true ↔ x = d ∨ memT x l = true ∨ memT x r = true := by
  simp [memT, or_assoc]

theorem allTree_node {p : Int → Bool} {d : Int} {l r : Tree} :
    allTree p (node l d r) = true ↔
      p d = true ∧ allTree p l = true ∧ allTree p r = true := by
  simp [allTree, and_assoc]

theorem isBST_node {d : Int} {l r : Tree} :
    isBST (node l d r) = true ↔
      allTree (fun x => decide (x < d)) l = true ∧
      allTree (fun x => decide (d < x)) r = true ∧
      isBST l = true ∧ isBST r = true := by
  simp [isBST, and_assoc]

theorem allTree_iff_mem {p : Int → Bool} {t : Tree} :
    allTree p t = true ↔ ∀ x, memT x t = true → p x = true := by
  induction t with
  | leaf => simp [allTree, memT]
  | node l d r ihl ihr =>
    rw [allTree_node, ihl, ihr]
    constructor
    · rintro ⟨hd, hl, hr⟩ x hx
      rcases memT_node.mp hx with h | h | h
      · exact h ▸ hd
      · exact hl x h
      · exact hr x h
    · intro h
      refine ⟨h d ?_, fun x hx => h x ?_, fun x hx => h x ?_⟩
      · exact memT_node.mpr (Or.inl rfl)
      · exact memT_node.mpr (Or.inr (Or.inl hx))
      · exact memT_node.mpr (Or.inr (Or.inr hx))

theorem memT_insert {t : Tree} {v x : Int} :
    memT x (insert t v) = true ↔ x = v ∨ memT x t = true := by
  induction t with
  | leaf => simp [insert, memT]
  | node l d r ihl ihr =>
    by_cases h1 : v < d
    · simp only [insert, if_pos h1]
      rw [memT_node, memT_node, ihl]
      tauto
    · by_cases h2 : v > d
      · simp only [insert, if_neg h1, if_pos h2]
        rw [memT_node, memT_node, ihr]
        tauto
      · have hvd : v = d := le_antisymm (not_lt.mp h2) (not_lt.mp h1)
        simp only [insert, if_neg h1, if_neg h2]
        rw [memT_node]
        subst hvd
        tauto

theorem allTree_insert {p : Int → Bool} {t : Tree} {v : Int}
    (h1 : allTree p t = true) (h2 : p v = true) :
    allTree p (insert t v) = true := by
  rw [allTree_iff_mem] at h1 ⊢
  intro x hx
  rcases memT_insert.mp hx with h | h
  · exact h ▸ h2
  · exact h1 x h

theorem isBST_insert {t : Tree} {v : Int} (h : isBST t = true) :
    isBST (insert t v) = true := by
  induction t with
  | leaf => simp [insert, isBST, allTree]
  | node l d r ihl ihr =>
    rw [isBST_node] at h
    obtain ⟨hal, har, hbl, hbr⟩ := h
    by_cases h1 : v < d
    · simp only [insert, if_pos h1]
      exact isBST_node.mpr
        ⟨allTree_insert hal (by simpa using h1), har, ihl hbl, hbr⟩
    · by_cases h2 : v > d
      · simp only [insert, if_neg h1, if_pos h2]
        exact isBST_node.mpr
          ⟨hal, allTree_insert har (by simpa using h2), hbl, ihr hbr⟩
      · simp only [insert, if_neg h1, if_neg h2]
        exact isBST_node.mpr ⟨hal, har, hbl, hbr⟩

theorem search_eq_memT {t : Tree} (h : isBST t = true) (k : Int) :
    search t k = memT k t := by
  induction t with
  | leaf => rfl
  | node l d r ihl ihr =>
    rw [isBST_node] at h
    obtain ⟨hal, har, hbl, hbr⟩ := h
    by_cases hkd : k = d
    · subst hkd
      simp [search, memT]
    · by_cases hlt : k < d
      · have hr0 : memT k r = false := by
          by_contra hne
          have : memT k r = true := by
            cases hmr : memT k r with
            | false => exact absurd hmr hne
            | true => rfl
          have := (allTree_iff_mem.mp har) k this
          simp at this
          omega
        simp only [search, beq_iff_eq, if_neg hkd, if_pos hlt]
        rw [ihl hbl]
        simp [memT, hkd, hr0]
      · have hgt : d < k := lt_of_le_of_ne (not_lt.mp hlt) (Ne.symm hkd)
        have hl0 : memT k l = false := by
          by_contra hne
          have : memT k l = true := by
            cases hml : memT k l with
            | false => exact absurd hml hne
            | true => rfl
          have := (allTree_iff_mem.mp hal) k this
          simp at this
          omega
        simp only [search, beq_iff_eq, if_neg hkd, if_neg hlt]
        rw [ihr hbr]
        simp [memT, hkd, hl0]

/-! ## Lemmas about the minimum-value helper -/

theorem minValue_mem_or {l : Tree} {d : Int} :
    minValue l d = d ∨ memT (minValue l d) l = true := by
  induction l generalizing d with
  | leaf => exact Or.inl rfl
  | node ll ld lr ihl =>
    right
    rcases ihl (d := ld) with h | h
    · rw [minValue, h]
      exact memT_node.mpr (Or.inl rfl)
    · rw [minValue]
      exact memT_node.mpr (Or.inr (Or.inl h))

theorem minValue_memT {l r : Tree} {d : Int} :
    memT (minValue l d) (node l d r) = true := by
  rcases minValue_mem_or (l := l) (d := d) with h | h
  · exact memT_node.mpr (Or.inl h)
  · exact memT_node.mpr (Or.inr (Or.inl h))

theorem minValue_le {l r : Tree} {d : Int} (h : isBST (node l d r) = true) :
    ∀ x, memT x (node l d r) = true → minValue l d ≤ x := by
  induction l generalizing d r with
  | leaf =>
    intro x hx
    rw [isBST_node] at h
    rcases memT_node.mp hx with hx | hx | hx
    · simp [minValue, hx]
    · simp [memT] at hx
    · have := allTree_iff_mem.mp h.2.1 x hx
      simp only [decide_eq_true_eq] at this
      simp only [minValue]
      omega
  | node ll ld lr ihl =>
    intro x hx
    rw [isBST_node] at h
    obtain ⟨hal, har, hbl, hbr⟩ := h
    have hmin_lt_d : minValue ll ld < d := by
      have := allTree_iff_mem.mp hal (minValue ll ld) minValue_memT
      simpa using this
    rcases memT_node.mp hx with hx | hx | hx
    · rw [minValue]
      omega
    · exact ihl (r := lr) hbl x hx
    · have hdx := allTree_iff_mem.mp har x hx
      simp only [decide_eq_true_eq] at hdx
      rw [minValue]
      omega

/-! ## Lemmas about delete -/

theorem memT_delete_subset {t : Tree} {k x : Int}
    (h : memT x (delete t k) = true) : memT x t = true := by
  induction t generalizing k with
  | leaf => simpa [delete] using h
  | node l d r ihl ihr =>
    by_cases h1 : k < d
    · rw [delete.eq_def] at h
      simp only [if_pos h1] at h
      rcases memT_node.mp h with h | h | h
      · exact memT_node.mpr (Or.inl h)
      · exact memT_node.mpr (Or.inr (Or.inl (ihl h)))
      · exact memT_node.mpr (Or.inr (Or.inr h))
    · by_cases h2 : k > d
      · rw [delete.eq_def] at h
        simp only [if_neg h1, if_pos h2] at h
        rcases memT_node.mp h with h | h | h
        · exact memT_node.mpr (Or.inl h)
        · exact memT_node.mpr (Or.inr (Or.inl h))
        · exact memT_node.mpr (Or.inr (Or.inr (ihr h)))
      · rw [delete.eq_def] at h
        simp only [if_neg h1, if_neg h2] at h
        match l, r with
        | leaf, r =>
          exact memT_node.mpr (Or.inr (Or.inr h))
        | node ll ld lr, leaf =>
          exact memT_node.mpr (Or.inr (Or.inl h))
        | node ll ld lr, node rl rd rr =>
          simp only at h
          rcases memT_node.mp h with h | h | h
          · exact memT_node.mpr (Or.inr (Or.inr (h ▸ minValue_memT)))
          · exact memT_node.mpr (Or.inr (Or.inl h))
          · exact memT_node.mpr (Or.inr (Or.inr (ihr h)))

theorem allTree_delete {p : Int → Bool} {t : Tree} {k : Int}
    (h : allTree p t = true) : allTree p (delete t k) = true := by
  rw [allTree_iff_mem] at h ⊢
  exact fun x hx => h x (memT_delete_subset hx)

theorem memT_delete {t : Tree} {k : Int} (h : isBST t = true) :
    ∀ x, memT x (delete t k) = true ↔ memT x t = true ∧ x ≠ k := by
  induction t generalizing k with
  | leaf => intro x; simp [delete, memT]
  | node l d r ihl ihr =>
    intro x
    rw [isBST_node] at h
    obtain ⟨hal, har, hbl, hbr⟩ := h
    have hmem_l_lt : ∀ y, memT y l = true → y < d := fun y hy => by
      simpa using allTree_iff_mem.mp hal y hy
    have hmem_r_gt : ∀ y, memT y r = true → d < y := fun y hy => by
      simpa using allTree_iff_mem.mp har y hy
    by_cases h1 : k < d
    · rw [delete.eq_def]
      simp only [if_pos h1]
      rw [memT_node, memT_node, ihl hbl x]
      constructor
      · rintro (hx | ⟨hx, hne⟩ | hx)
        · exact ⟨Or.inl hx, by omega⟩
        · exact ⟨Or.inr (Or.inl hx), hne⟩
        · exact ⟨Or.inr (Or.inr hx), by have := hmem_r_gt x hx; omega⟩
      · rintro ⟨hx | hx | hx, hne⟩
        · exact Or.inl hx
        · exact Or.inr (Or.inl ⟨hx, hne⟩)
        · exact Or.inr (Or.inr hx)
    · by_cases h2 : k > d
      · rw [delete.eq_def]
        simp only [if_neg h1, if_pos h2]
        rw [memT_node, memT_node, ihr hbr x]
        constructor
        · rintro (hx | hx | ⟨hx, hne⟩)
          · exact ⟨Or.inl hx, by omega⟩
          · exact ⟨Or.inr (Or.inl hx), by have := hmem_l_lt x hx; omega⟩
          · exact ⟨Or.inr (Or.inr hx), hne⟩
        · rintro ⟨hx | hx | hx, hne⟩
          · exact Or.inl hx
          · exact Or.inr (Or.inl hx)
          · exact Or.inr (Or.inr ⟨hx, hne⟩)
      · have hkd : k = d := by omega
        subst hkd
        rw [delete.eq_def]
        simp only [if_neg h1, if_neg h2]
        match l, r, hmem_l_lt, hmem_r_gt with
        | leaf, r, hmem_l_lt, hmem_r_gt =>
          constructor
          · intro hx
            exact ⟨memT_node.mpr (Or.inr (Or.inr hx)),
              by have := hmem_r_gt x hx; omega⟩
          · rintro ⟨hx, hne⟩
            rcases memT_node.mp hx with hx | hx | hx
            · omega
            · exact absurd hx (by simp [memT])
            · exact hx
        | node ll ld lr, leaf, hmem_l_lt, hmem_r_gt =>
          constructor
          · intro hx
            exact ⟨memT_node.mpr (Or.inr (Or.inl hx)),
              by have := hmem_l_lt x hx; omega⟩
          · rintro ⟨hx, hne⟩
            rcases memT_node.mp hx with hx | hx | hx
            · omega
            · exact hx
            · exact absurd hx (by simp [memT])
        | node ll ld lr, node rl rd rr, hmem_l_lt, hmem_r_gt =>
          simp only
          have hm_mem : memT (minValue rl rd) (node rl rd rr) = true :=
            minValue_memT
          have hdm : k < minValue rl rd := hmem_r_gt _ hm_mem
          constructor
          · intro hx
            rcases memT_node.mp hx with hx | hx | hx
            · exact ⟨memT_node.mpr (Or.inr (Or.inr (hx ▸ hm_mem))), by omega⟩
            · exact ⟨memT_node.mpr (Or.inr (Or.inl hx)),
                by have := hmem_l_lt x hx; omega⟩
            · obtain ⟨hxr, hxm⟩ := (ihr hbr x).mp hx
              exact ⟨memT_node.mpr (Or.inr (Or.inr hxr)),
                by have := hmem_r_gt x hxr; omega⟩
          · rintro ⟨hx, hne⟩
            rcases memT_node.mp hx with hx | hx | hx
            · omega
            · exact memT_node.mpr (Or.inr (Or.inl hx))
            · by_cases hxm : x = minValue rl rd
              · exact memT_node.mpr (Or.inl hxm)
              · exact memT_node.mpr
                  (Or.inr (Or.inr ((ihr hbr x).mpr ⟨hx, hxm⟩)))

theorem isBST_delete {t : Tree} {k : Int} (h : isBST t = true) :
    isBST (delete t k) = true := by
  induction t generalizing k with
  | leaf => simpa [delete] using h
  | node l d r ihl ihr =>
    rw [isBST_node] at h
    obtain ⟨hal, har, hbl, hbr⟩ := h
    by_cases h1 : k < d
    · rw [delete.eq_def]
      simp only [if_pos h1]
      exact isBST_node.mpr ⟨allTree_delete hal, har, ihl hbl, hbr⟩
    · by_cases h2 : k > d
      · rw [delete.eq_def]
        simp only [if_neg h1, if_pos h2]
        exact isBST_node.mpr ⟨hal, allTree_delete har, hbl, ihr hbr⟩
      · rw [delete.eq_def]
        simp only [if_neg h1, if_neg h2]
        match l, r, hal, har, hbl, hbr with
        | leaf, r, hal, har, hbl, hbr => exact hbr
        | node ll ld lr, leaf, hal, har, hbl, hbr => exact hbl
        | node ll ld lr, node rl rd rr, hal, har, hbl, hbr =>
          simp only
          have hm_mem : memT (minValue rl rd) (node rl rd rr) = true :=
            minValue_memT
          have hdm : d < minValue rl rd := by
            simpa using allTree_iff_mem.mp har _ hm_mem
          refine isBST_node.mpr ⟨?_, ?_, hbl, ihr hbr⟩
          · rw [allTree_iff_mem]
            intro x hx
            have hxd : x < d := by
              simpa using allTree_iff_mem.mp hal x hx
            simp only [decide_eq_true_eq]
            omega
          · rw [allTree_iff_mem]
            intro x hx
            obtain ⟨hxr, hxm⟩ := (memT_delete hbr x).mp hx
            have hle := minValue_le hbr x hxr
            simp only [decide_eq_true_eq]
            omega

/-! ## Operation sequences preserve the invariant -/

theorem isBST_applyOp {t : Tree} (h : isBST t = true) (op : Op) :
    isBST (applyOp t op) = true := by
  cases op with
  | ins v => exact isBST_insert h
  | del v => exact isBST_delete h

theorem isBST_runOps {t : Tree} (h : isBST t = true) (ops : List Op) :
    isBST (runOps t ops) = true := by
  induction ops generalizing t with
  | nil => exact h
  | cons op ops ih => exact ih (isBST_applyOp h op)

theorem isBST_applyOps (ops : List Op) : isBST (applyOps ops) = true :=
  isBST_runOps (t := leaf) (by rfl) ops

/-! ## Inorder traversal -/

theorem mem_inorder {x : Int} {t : Tree} :
    x ∈ inorder t ↔ memT x t = true := by
  induction t with
  | leaf => simp [inorder, memT]
  | node l d r ihl ihr =>
    rw [memT_node]
    simp [inorder, ihl, ihr]
    tauto

theorem inorder_sorted {t : Tree} (h : isBST t = true) :
    List.Sorted (· < ·) (inorder t) := by
  induction t with
  | leaf => simp [inorder]
  | node l d r ihl ihr =>
    rw [isBST_node] at h
    obtain ⟨hal, har, hbl, hbr⟩ := h
    rw [inorder, List.Sorted, List.pairwise_append]
    refine ⟨ihl hbl, ?_, ?_⟩
    · rw [List.pairwise_cons]
      refine ⟨fun y hy => ?_, ihr hbr⟩
      simpa using allTree_iff_mem.mp har y (mem_inorder.mp hy)
    · intro x hx y hy
      have hxd : x < d := by
        simpa using allTree_iff_mem.mp hal x (mem_inorder.mp hx)
      rcases List.mem_cons.mp hy with hy | hy
      · omega
      · have hdy : d < y := by
          simpa using allTree_iff_mem.mp har y (mem_inorder.mp hy)
        omega

/-! ## No-op characterizations of insert and delete -/

theorem insert_of_search {t : Tree} {v : Int} (h : search t v = true) :
    insert t v = t := by
  induction t with
  | leaf => simp [search] at h
  | node l d r ihl ihr =>
    by_cases hvd : v = d
    · subst hvd
      simp [insert]
    · by_cases hlt : v < d
      · rw [search.eq_def] at h
        simp only [beq_iff_eq, if_neg hvd, if_pos hlt] at h
        rw [insert.eq_def]
        simp [if_pos hlt, ihl h]
      · have hgt : v > d := lt_of_le_of_ne (not_lt.mp hlt) (Ne.symm hvd)
        rw [search.eq_def] at h
        simp only [beq_iff_eq, if_neg hvd, if_neg hlt] at h
        rw [insert.eq_def]
        simp [if_neg (by omega : ¬ v < d), if_pos hgt, ihr h]

theorem delete_of_not_search {t : Tree} {v : Int} (h : search t v = false) :
    delete t v = t := by
  induction t with
  | leaf => simp [delete]
  | node l d r ihl ihr =>
    by_cases hvd : v = d
    · subst hvd
      simp [search] at h
    · by_cases hlt : v < d
      · rw [search.eq_def] at h
        simp only [beq_iff_eq, if_neg hvd, if_pos hlt] at h
        rw [delete.eq_def]
        simp [if_pos hlt, ihl h]
      · have hgt : v > d := lt_of_le_of_ne (not_lt.mp hlt) (Ne.symm hvd)
        rw [search.eq_def] at h
        simp only [beq_iff_eq, if_neg hvd, if_neg hlt] at h
        rw [delete.eq_def]
        simp [if_neg (by omega : ¬ v < d), if_pos hgt, ihr h]

/-! ## Size accounting -/

theorem length_inorder_insert {t : Tree} {v : Int} :
    (inorder (insert t v)).length =
      (inorder t).length + (if search t v then 0 else 1) := by
  induction t with
  | leaf => simp [insert, inorder, search]
  | node l d r ihl ihr =>
    by_cases hvd : v = d
    · subst hvd
      simp [insert, search]
    · by_cases hlt : v < d
      · rw [insert.eq_def, search.eq_def]
        simp only [beq_iff_eq, if_neg hvd, if_pos hlt]
        simp only [inorder, List.length_append, List.length_cons, ihl]
        by_cases hs : search l v = true <;> simp [hs]
        all_goals omega
      · have hgt : v > d := lt_of_le_of_ne (not_lt.mp hlt) (Ne.symm hvd)
        rw [insert.eq_def, search.eq_def]
        simp only [beq_iff_eq, if_neg hvd, if_neg hlt,
          if_neg (by omega : ¬ v < d), if_pos hgt]
        simp only [inorder, List.length_append, List.length_cons, ihr]
        by_cases hs : search r v = true <;> simp [hs]
        all_goals omega

theorem length_inorder_delete {t : Tree} {k : Int} (h : isBST t = true) :
    (inorder (delete t k)).length + (if memT k t then 1 else 0) =
      (inorder t).length := by
  induction t generalizing k with
  | leaf => simp [delete, inorder, memT]
  | node l d r ihl ihr =>
    rw [isBST_node] at h
    obtain ⟨hal, har, hbl, hbr⟩ := h
    have hmem_l_lt : ∀ y, memT y l = true → y < d := fun y hy => by
      simpa using allTree_iff_mem.mp hal y hy
    have hmem_r_gt : ∀ y, memT y r = true → d < y := fun y hy => by
      simpa using allTree_iff_mem.mp har y hy
    by_cases h1 : k < d
    · have hkr : memT k r = false := by
        cases hkr : memT k r with
        | false => rfl
        | true => have := hmem_r_gt k hkr; omega
      rw [delete.eq_def]
      simp only [if_pos h1]
      have hkd : (k == d) = false := by simp; omega
      simp only [inorder, List.length_append, List.length_cons, memT,
        hkd, hkr, Bool.or_false, Bool.false_or]
      have := ihl (k := k) hbl
      by_cases hm : memT k l = true <;> simp [hm] at this ⊢ <;> omega
    · by_cases h2 : k > d
      · have hkl : memT k l = false := by
          cases hkl : memT k l with
          | false => rfl
          | true => have := hmem_l_lt k hkl; omega
        rw [delete.eq_def]
        simp only [if_neg h1, if_pos h2]
        have hkd : (k == d) = false := by simp; omega
        simp only [inorder, List.length_append, List.length_cons, memT,
          hkd, hkl, Bool.or_false, Bool.false_or]
        have := ihr (k := k) hbr
        by_cases hm : memT k r = true <;> simp [hm] at this ⊢ <;> omega
      · have hkd : k = d := by omega
        subst hkd
        rw [delete.eq_def]
        simp only [if_neg h1, if_neg h2]
        have hkmem : memT k (node l k r) = true := memT_node.mpr (Or.inl rfl)
        rw [hkmem]
        match l, r, hbl, hbr with
        | leaf, r, hbl, hbr =>
          simp [inorder]
        | node ll ld lr, leaf, hbl, hbr =>
          simp [inorder]
          omega
        | node ll ld lr, node rl rd rr, hbl, hbr =>
          simp only
          have hm_mem : memT (minValue rl rd) (node rl rd rr) = true :=
            minValue_memT
          have := ihr (k := minValue rl rd) hbr
          rw [hm_mem] at this
          simp only [inorder, List.length_append, List.length_cons] at this ⊢
          omega

theorem memT_applyOp {t : Tree} (h : isBST t = true) (v : Int) (op : Op) :
    memT v (applyOp t op) = presentStep v (memT v t) op := by
  cases op with
  | ins w =>
    by_cases hwv : w = v
    · subst hwv
      simp only [applyOp, presentStep, beq_self_eq_true, if_pos]
      exact memT_insert.mpr (Or.inl rfl)
    · simp only [applyOp, presentStep, beq_iff_eq, if_neg hwv]
      cases hm : memT v t with
      | true => exact memT_insert.mpr (Or.inr hm)
      | false =>
        cases hm2 : memT v (insert t w) with
        | false => rfl
        | true =>
          rcases memT_insert.mp hm2 with h' | h'
          · exact absurd h'.symm hwv
          · simp [hm] at h'
  | del w =>
    by_cases hwv : w = v
    · subst hwv
      simp only [applyOp, presentStep, beq_self_eq_true, if_pos]
      cases hm : memT w (delete t w) with
      | false => rfl
      | true => exact absurd ((memT_delete h w).mp hm).2 (by simp)
    · simp only [applyOp, presentStep, beq_iff_eq, if_neg hwv]
      cases hm : memT v t with
      | true => exact (memT_delete h v).mpr ⟨hm, Ne.symm hwv⟩
      | false =>
        cases hm2 : memT v (delete t w) with
        | false => rfl
        | true =>
          have h' := ((memT_delete h v).mp hm2).1
          simp [hm] at h'

theorem memT_runOps {t : Tree} (h : isBST t = true) (v : Int)
    (ops : List Op) :
    memT v (runOps t ops) = ops.foldl (presentStep v) (memT v t) := by
  induction ops generalizing t with
  | nil => rfl
  | cons op ops ih =>
    show memT v (runOps (applyOp t op) ops) = _
    rw [ih (isBST_applyOp h op), memT_applyOp h v op]
    rfl

theorem length_runOps {t : Tree} (h : isBST t = true) (ops : List Op) :
    (inorder (runOps t ops)).length + effectiveDeletes t ops =
      (inorder t).length + effectiveInserts t ops := by
  induction ops generalizing t with
  | nil => rfl
  | cons op ops ih =>
    cases op with
    | ins v =>
      have hrun : runOps t (.ins v :: ops) = runOps (insert t v) ops := rfl
      have hlen : (inorder (insert t v)).length =
          (inorder t).length + (if memT v t then 0 else 1) := by
        rw [length_inorder_insert, search_eq_memT h]
      have := ih (isBST_insert (v := v) h)
      rw [hrun]
      simp only [effectiveDeletes, effectiveInserts]
      omega
    | del v =>
      have hrun : runOps t (.del v :: ops) = runOps (delete t v) ops := rfl
      have hlen := length_inorder_delete (t := t) (k := v) h
      have := ih (isBST_delete (k := v) h)
      rw [hrun]
      simp only [effectiveDeletes, effectiveInserts]
      omega

end BstRec

namespace BellNums

/-! ## Basic facts about the two tables -/

theorem stirling_eq_zero_of_lt : ∀ {n k : Nat}, n < k → stirling n k = 0 := by
  intro n k h
  rw [stirling.eq_def]
  match n, k, h with
  | 0, k + 1, _ => rfl
  | n + 1, k + 1, h =>
    simp only [if_neg (show ¬ k + 1 ≤ n + 1 by omega)]

theorem stirling_succ_zero (n : Nat) : stirling (n + 1) 0 = 0 := by
  rw [stirling.eq_def]

theorem stirling_zero_zero : stirling 0 0 = 1 := by
  rw [stirling.eq_def]

theorem stirling_succ_succ (n k : Nat) :
    stirling (n + 1) (k + 1) = (k + 1) * stirling n (k + 1) + stirling n k := by
  by_cases h : k + 1 ≤ n + 1
  · rw [stirling.eq_def]
    simp only [if_pos h]
  · rw [stirling_eq_zero_of_lt (show n + 1 < k + 1 by omega),
      stirling_eq_zero_of_lt (show n < k + 1 by omega),
      stirling_eq_zero_of_lt (show n < k by omega)]
    ring

theorem bellTri_eq_zero_of_lt : ∀ {i j : Nat}, i < j → bellTri i j = 0 := by
  intro i j h
  rw [bellTri.eq_def]
  match i, j, h with
  | 0, j + 1, _ => rfl
  | i + 1, j + 1, h =>
    simp only [if_neg (show ¬ j + 1 ≤ i + 1 by omega)]

theorem bellTri_zero_zero : bellTri 0 0 = 1 := by
  rw [bellTri.eq_def]

theorem bellTri_succ_zero (i : Nat) : bellTri (i + 1) 0 = bellTri i i := by
  rw [bellTri.eq_def]

theorem bellTri_succ_succ {i j : Nat} (h : j ≤ i) :
    bellTri (i + 1) (j + 1) = bellTri i j + bellTri (i + 1) j := by
  rw [bellTri.eq_def]
  simp only [if_pos (show j + 1 ≤ i + 1 by omega)]

theorem bell_number_sum_eq_bellSum (n : Nat) :
    bell_number_sum n = bellSum n := by
  cases n with
  | zero =>
    rw [bell_number_sum, if_pos rfl, bellSum, Finset.sum_range_one,
      stirling_zero_zero]
  | succ n =>
    rw [bell_number_sum, if_neg (Nat.succ_ne_zero n), bellSum]

/-! ## The Stirling column identity and the Bell recurrence -/

theorem stirling_succ_eq_sum (n : Nat) :
    ∀ k, stirling (n + 1) (k + 1) =
      ∑ j in Finset.range (n + 1), n.choose j * stirling j k := by
  induction n with
  | zero =>
    intro k
    rw [Finset.sum_range_one, Nat.choose_self, one_mul]
    cases k with
    | zero =>
      rw [stirling_zero_zero, stirling_succ_succ, stirling_zero_zero,
        stirling_eq_zero_of_lt (by omega)]
    | succ k =>
      rw [stirling_eq_zero_of_lt (by omega),
        stirling_eq_zero_of_lt (by omega)]
  | succ n ih =>
    intro k
    have hsplit :
        ∑ j in Finset.range (n + 2), (n + 1).choose j * stirling j k
          = (∑ j in Finset.range (n + 1),
              (n + 1).choose (j + 1) * stirling (j + 1) k)
            + (n + 1).choose 0 * stirling 0 k :=
      Finset.sum_range_succ' _ (n + 1)
    have hpascal :
        ∑ j in Finset.range (n + 1),
            (n + 1).choose (j + 1) * stirling (j + 1) k
          = (∑ j in Finset.range (n + 1), n.choose j * stirling (j + 1) k)
            + ∑ j in Finset.range (n + 1),
                n.choose (j + 1) * stirling (j + 1) k := by
      rw [← Finset.sum_add_distrib]
      refine Finset.sum_congr rfl fun j _ => ?_
      rw [Nat.choose_succ_succ, add_mul]
    have htail :
        (∑ j in Finset.range (n + 1),
            n.choose (j + 1) * stirling (j + 1) k)
          + (n + 1).choose 0 * stirling 0 k
          = stirling (n + 1) (k + 1) := by
      have h0 : (n + 1).choose 0 * stirling 0 k
          = n.choose 0 * stirling 0 k := by
        rw [Nat.choose_zero_right, Nat.choose_zero_right]
      rw [h0, ← Finset.sum_range_succ' (fun j => n.choose j * stirling j k)
        (n + 1), Finset.sum_range_succ, Nat.choose_succ_self, zero_mul,
        add_zero, ih k]
    have hhead :
        ∑ j in Finset.range (n + 1), n.choose j * stirling (j + 1) k
          = k * stirling (n + 1) (k + 1) + stirling (n + 1) k := by
      cases k with
      | zero =>
        have hz : ∀ j ∈ Finset.range (n + 1),
            n.choose j * stirling (j + 1) 0 = 0 := by
          intro j _
          rw [stirling_succ_zero, mul_zero]
        rw [Finset.sum_congr rfl hz, Finset.sum_const, smul_zero, zero_mul,
          zero_add, stirling_succ_zero]
      | succ k =>
        have hstep : ∀ j ∈ Finset.range (n + 1),
            n.choose j * stirling (j + 1) (k + 1)
              = (k + 1) * (n.choose j * stirling j (k + 1))
                + n.choose j * stirling j k := by
          intro j _
          rw [stirling_succ_succ, mul_add, mul_left_comm]
        rw [Finset.sum_congr rfl hstep, Finset.sum_add_distrib,
          ← Finset.mul_sum, ← ih (k + 1), ← ih k]
    rw [hsplit, hpascal]
    nth_rewrite 2 [add_assoc]
    rw [htail, hhead, stirling_succ_succ (n + 1) k]
    ring

theorem bellSum_succ (n : Nat) :
    bellSum (n + 1) = ∑ j in Finset.range (n + 1), n.choose j * bellSum j := by
  have hrow : ∀ j ∈ Finset.range (n + 1),
      ∑ k in Finset.range (n + 1), stirling j k = bellSum j := by
    intro j hj
    rw [Finset.mem_range] at hj
    rw [bellSum]
    symm
    refine Finset.sum_subset (Finset.range_subset.mpr (by omega)) ?_
    intro x _ hx
    rw [Finset.mem_range, not_lt] at hx
    exact stirling_eq_zero_of_lt (by omega)
  calc bellSum (n + 1)
      = (∑ k in Finset.range (n + 1), stirling (n + 1) (k + 1))
          + stirling (n + 1) 0 := Finset.sum_range_succ' _ (n + 1)
    _ = ∑ k in Finset.range (n + 1),
          ∑ j in Finset.range (n + 1), n.choose j * stirling j k := by
        rw [stirling_succ_zero, add_zero]
        exact Finset.sum_congr rfl fun k _ => stirling_succ_eq_sum n k
    _ = ∑ j in Finset.range (n + 1),
          ∑ k in Finset.range (n + 1), n.choose j * stirling j k :=
        Finset.sum_comm
    _ = ∑ j in Finset.range (n + 1), n.choose j * bellSum j := by
        refine Finset.sum_congr rfl fun j hj => ?_
        rw [← Finset.mul_sum, hrow j hj]

/-! ## The Bell-triangle formula -/

theorem bellTri_eq_sum :
    ∀ i j, j ≤ i →
      bellTri i j =
        ∑ m in Finset.range (j + 1), j.choose m * bellSum (i - j + m) := by
  intro i
  induction i with
  | zero =>
    intro j hj
    have hj0 : j = 0 := by omega
    subst hj0
    rw [bellTri_zero_zero, Finset.sum_range_one, Nat.choose_self, one_mul,
      bellSum, Finset.sum_range_one, stirling_zero_zero]
  | succ i ih =>
    intro j
    induction j with
    | zero =>
      intro _
      rw [bellTri_succ_zero, ih i le_rfl, Finset.sum_range_one,
        Nat.choose_self, one_mul, Nat.sub_zero, Nat.add_zero,
        bellSum_succ]
      refine Finset.sum_congr rfl fun m hm => ?_
      rw [Finset.mem_range] at hm
      rw [Nat.sub_self, Nat.zero_add]
    | succ j ihj =>
      intro hj
      have hji : j ≤ i := by omega
      rw [bellTri_succ_succ hji, ih j hji, ihj (by omega),
        Nat.succ_sub_succ, Nat.succ_sub hji]
      generalize i - j = c
      have hsplit :
          ∑ m in Finset.range (j + 2), (j + 1).choose m * bellSum (c + m)
            = (∑ m in Finset.range (j + 1),
                (j + 1).choose (m + 1) * bellSum (c + (m + 1)))
              + (j + 1).choose 0 * bellSum (c + 0) :=
        Finset.sum_range_succ' _ (j + 1)
      have hpascal :
          ∑ m in Finset.range (j + 1),
              (j + 1).choose (m + 1) * bellSum (c + (m + 1))
            = (∑ m in Finset.range (j + 1),
                j.choose m * bellSum (c + (m + 1)))
              + ∑ m in Finset.range (j + 1),
                  j.choose (m + 1) * bellSum (c + (m + 1)) := by
        rw [← Finset.sum_add_distrib]
        refine Finset.sum_congr rfl fun m _ => ?_
        rw [Nat.choose_succ_succ, add_mul]
      have htail :
          (∑ m in Finset.range (j + 1),
              j.choose (m + 1) * bellSum (c + (m + 1)))
            + (j + 1).choose 0 * bellSum (c + 0)
            = ∑ m in Finset.range (j + 1), j.choose m * bellSum (c + m) := by
        have h0 : (j + 1).choose 0 * bellSum (c + 0)
            = j.choose 0 * bellSum (c + 0) := by
          rw [Nat.choose_zero_right, Nat.choose_zero_right]
        rw [h0, ← Finset.sum_range_succ' (fun m => j.choose m * bellSum (c + m))
          (j + 1), Finset.sum_range_succ, Nat.choose_succ_self, zero_mul,
          add_zero]
      have hhead :
          ∑ m in Finset.range (j + 1), j.choose m * bellSum (c + (m + 1))
            = ∑ m in Finset.range (j + 1),
                j.choose m * bellSum (Nat.succ c + m) := by
        refine Finset.sum_congr rfl fun m _ => ?_
        rw [Nat.succ_add, Nat.add_succ]
      rw [hsplit, hpascal, add_assoc, htail, hhead]
      ring

/-! ## The two implementations agree -/

theorem bell_number_eq_bellSum (n : Nat) : bell_number n = bellSum n := by
  cases n with
  | zero =>
    rw [bell_number, if_pos rfl, bellSum, Finset.sum_range_one,
      stirling_zero_zero]
  | succ n =>
    rw [bell_number, if_neg (Nat.succ_ne_zero n),
      bellTri_eq_sum (n + 1) 0 (by omega), Finset.sum_range_one,
      Nat.choose_self, one_mul, Nat.sub_zero, Nat.add_zero]

end BellNums

namespace BstRec

open Tree

/-- C1: for every finite sequence of insert and delete operations applied
from an empty (absent) root, the inorder traversal of the resulting tree
yields its values in strictly ascending order. -/
theorem C1_inorder_strictly_ascending (ops : List Op) :
    List.Sorted (· < ·) (inorder (applyOps ops)) :=
  inorder_sorted (isBST_applyOps ops)

/-- C2: for every tree built by a sequence of inserts and deletes from an
empty root and every value `v`, `search` returns true exactly when `v` was
inserted and not subsequently deleted (`presentAfter`); in particular it
returns false when `v` was never inserted. -/
theorem C2_search_correctness (ops : List Op) (v : Int) :
    search (applyOps ops) v = presentAfter v ops := by
  rw [search_eq_memT (isBST_applyOps ops) v]
  exact memT_runOps (t := Tree.leaf) (by rfl) v ops

/-- C3: deleting `v` from a valid BST makes `search` for `v` return false,
while any other value `w ≠ v` present before the deletion is still
found. -/
theorem C3_delete_then_search (t : Tree) (v w : Int)
    (h : isBST t = true) (hw : memT w t = true) (hne : w ≠ v) :
    search (delete t v) v = false ∧ search (delete t v) w = true := by
  have hb : isBST (delete t v) = true := isBST_delete h
  constructor
  · rw [search_eq_memT hb v]
    cases hm : memT v (delete t v) with
    | false => rfl
    | true => exact absurd ((memT_delete h v).mp hm).2 (by simp)
  · rw [search_eq_memT hb w]
    exact (memT_delete h w).mpr ⟨hw, hne⟩

/-- Witness for C3: deleting 2 from the BST holding {1, 2} makes 2
unsearchable while 1 is still found. -/
theorem C3_delete_then_search_witness :
    search (delete (insert (insert Tree.leaf 2) 1) 2) 2 = false ∧
    search (delete (insert (insert Tree.leaf 2) 1) 2) 1 = true :=
  C3_delete_then_search (insert (insert Tree.leaf 2) 1) 2 1
    (by decide) (by decide) (by decide)

/-- C4: inserting a value already present in a valid BST returns the very
same tree, so both the structural shape and the inorder sequence are
unchanged. -/
theorem C4_insert_duplicate_noop (t : Tree) (v : Int)
    (h : isBST t = true) (hv : memT v t = true) : insert t v = t :=
  insert_of_search (by rw [search_eq_memT h]; exact hv)

/-- Witness for C4: re-inserting 2 into the BST holding {1, 2} returns the
same tree. -/
theorem C4_insert_duplicate_noop_witness :
    insert (insert (insert Tree.leaf 2) 1) 2 = insert (insert Tree.leaf 2) 1 :=
  C4_insert_duplicate_noop (insert (insert Tree.leaf 2) 1) 2
    (by decide) (by decide)

/-- C5: when the root of a valid BST holds the key to delete and has both
children, `delete` copies the minimum of the right subtree (the in-order
successor) into the root and recursively deletes that value from the
right subtree, keeping the same left subtree in the returned root. -/
theorem C5_delete_two_children (ll : Tree) (ld : Int) (lr : Tree) (d : Int)
    (rl : Tree) (rd : Int) (rr : Tree)
    (_h : isBST (node (node ll ld lr) d (node rl rd rr)) = true) :
    delete (node (node ll ld lr) d (node rl rd rr)) d
      = node (node ll ld lr) (minValue rl rd)
          (delete (node rl rd rr) (minValue rl rd)) := by
  rw [delete.eq_def]
  simp [lt_irrefl]

/-- Witness for C5: deleting the root 2 of the BST `1 ← 2 → 3` copies the
right-subtree minimum 3 into the root. -/
theorem C5_delete_two_children_witness :
    delete (node (node Tree.leaf 1 Tree.leaf) 2 (node Tree.leaf 3 Tree.leaf)) 2
      = node (node Tree.leaf 1 Tree.leaf) (minValue Tree.leaf 3)
          (delete (node Tree.leaf 3 Tree.leaf) (minValue Tree.leaf 3)) :=
  C5_delete_two_children Tree.leaf 1 Tree.leaf 2 Tree.leaf 3 Tree.leaf
    (by decide)

/-- C6: on any non-absent node of a valid BST, `minValue` (which always
terminates, being a total function on the node's fields, so the absent
precondition violation is unrepresentable) yields a value that belongs to
the subtree and is less than or equal to every value in it. -/
theorem C6_minValue_is_minimum (l r : Tree) (d x : Int)
    (h : isBST (node l d r) = true) (hx : memT x (node l d r) = true) :
    memT (minValue l d) (node l d r) = true ∧ minValue l d ≤ x :=
  ⟨minValue_memT, minValue_le h x hx⟩

/-- Witness for C6: in the BST `1 ← 2 → 3`, the minimum 1 is a member and
is at most the member 3. -/
theorem C6_minValue_is_minimum_witness :
    memT (minValue (node Tree.leaf 1 Tree.leaf) 2)
        (node (node Tree.leaf 1 Tree.leaf) 2 (node Tree.leaf 3 Tree.leaf))
      = true ∧
    minValue (node Tree.leaf 1 Tree.leaf) 2 ≤ 3 :=
  C6_minValue_is_minimum (node Tree.leaf 1 Tree.leaf)
    (node Tree.leaf 3 Tree.leaf) 2 3 (by decide) (by decide)

/-- C7 counterexample: for the run `insert 1, delete 1, insert 1` the
inorder traversal yields 1 value, but the number of distinct inserted
values (1) minus the number of deletes of a present key (1) is 0. -/
theorem C7_round_trip_size_counterexample :
    ¬ ((inorder (applyOps [.ins 1, .del 1, .ins 1])).length
        = distinctInsertCount [.ins 1, .del 1, .ins 1]
          - effectiveDeletes Tree.leaf [.ins 1, .del 1, .ins 1]) := by
  decide

/-- C7 (amended): for every finite sequence of inserts and deletes from an
empty root, the number of values yielded by the inorder traversal equals
the number of insert operations whose value was absent at insertion time
minus the number of delete operations whose key was present at deletion
time (stated additively to avoid truncated subtraction). -/
theorem C7_round_trip_size (ops : List Op) :
    (inorder (applyOps ops)).length + effectiveDeletes Tree.leaf ops
      = effectiveInserts Tree.leaf ops := by
  have h := length_runOps (t := Tree.leaf) (by rfl) ops
  simpa [inorder] using h

/-- C8: the demonstration scenario: inserting `[50, 30, 20, 40, 70, 60,
80]` yields inorder `[20, 30, 40, 50, 60, 70, 80]`; 40 is found and 90 is
not; deleting 20, then 30, then 50 yields the expected inorder sequences,
with 50 replaced by its successor 60 at the root. -/
theorem C8_demo_scenario :
    inorder exampleTree = [20, 30, 40, 50, 60, 70, 80] ∧
    search exampleTree 40 = true ∧
    search exampleTree 90 = false ∧
    inorder (delete exampleTree 20) = [30, 40, 50, 60, 70, 80] ∧
    inorder (delete (delete exampleTree 20) 30) = [40, 50, 60, 70, 80] ∧
    inorder (delete (delete (delete exampleTree 20) 30) 50)
      = [40, 60, 70, 80] ∧
    rootValue (delete (delete (delete exampleTree 20) 30) 50) = some 60 := by
  decide

/-- C9: deleting a key that is absent from a valid BST returns the very
same tree: identical structural shape and inorder sequence. -/
theorem C9_delete_absent_noop (t : Tree) (v : Int)
    (h : isBST t = true) (hv : memT v t = false) : delete t v = t := by
  apply delete_of_not_search
  rw [search_eq_memT h]
  exact hv

/-- Witness for C9: deleting the absent key 5 from the BST holding {1, 2}
returns the same tree. -/
theorem C9_delete_absent_noop_witness :
    delete (insert (insert Tree.leaf 2) 1) 5 = insert (insert Tree.leaf 2) 1 :=
  C9_delete_absent_noop (insert (insert Tree.leaf 2) 1) 5
    (by decide) (by decide)

end BstRec

namespace BellNums

/-- C10: the two independent Bell-number implementations agree for every
non-negative integer: the Bell-triangle computation of `bell_number`
equals the Stirling-number summation of `bell_number_sum`. -/
theorem C10_bell_implementations_agree (n : Nat) :
    bell_number n = bell_number_sum n := by
  rw [bell_number_eq_bellSum, bell_number_sum_eq_bellSum]

end BellNums
